import Mathlib

/-!
Verification of the min-max heap implementation in `Codechef/MinMaxHeap.py`.

The Python class `MinMaxHeap` stores its elements in a Python list `self.heap`
whose slot 0 holds the unused sentinel value `0`, together with an integer
field `self.size`.  We embed the backing list as `List Int` and the object
state as the structure `MinMaxHeap` below.  Python list reads `heap[i]` that
are always in bounds at their call sites are embedded with `List.getD · · 0`;
the one list write whose bound check is load-bearing (the slot-1 assignment in
`delete_min`) is embedded with an explicit bounds test, and a Python exception
is embedded as `Except.error` carrying the error kind together with the state
of the object at the moment the exception is raised (Python leaves the partly
mutated object behind).
-/

namespace MinMaxHeapModel

/-- Fuel-driven floor base-2 logarithm: `level_aux f i` equals the number of
halvings needed to bring `i` below 2, provided `i ≤ f`.  The fuel makes the
definition structurally recursive so that it evaluates by `decide`. -/
def level_aux : Nat → Nat → Nat
  | 0, _ => 0
  | f + 1, i => if 2 ≤ i then level_aux f (i / 2) + 1 else 0

/-- The level of node index `i` in the implicit tree: `floor (log2 i)`.
Embeds `math.floor(math.log2(i))` from `_is_min_level` (source lines 20-21);
the Python float computation is exact at every index size the structure can
reach, so we embed it with the exact integer floor logarithm. -/
def level (i : Nat) : Nat := level_aux i i

/-- Embeds `MinMaxHeap._is_min_level` (source lines 11-22): index 0 is not on
a min level, and index `i ≥ 1` is on a min level exactly when its level
(floor log2) is even. -/
def is_min_level (i : Nat) : Bool :=
  if i = 0 then false else level i % 2 == 0

/-- Embeds `MinMaxHeap._parent` (source lines 24-25): integer halving. -/
def parent (i : Nat) : Nat := i / 2

/-- Embeds `MinMaxHeap._left_child` (source lines 27-28). -/
def left_child (i : Nat) : Nat := 2 * i

/-- Embeds `MinMaxHeap._right_child` (source lines 30-31). -/
def right_child (i : Nat) : Nat := 2 * i + 1

/-- Embeds the Python parallel assignment
`heap[i], heap[j] = heap[j], heap[i]`: both right-hand sides are read from
the original list before either write happens. -/
def swap (l : List Int) (i j : Nat) : List Int :=
  (l.set i (l.getD j 0)).set j (l.getD i 0)

/-- `isDesc a j` holds when index `j` lies in the subtree rooted at index
`a`, that is, when iterated halving of `j` reaches `a`.  The witness
exponent is bounded by `j`, which suffices because `j / 2 ^ k = a ≥ 1`
forces `2 ^ k ≤ j`. -/
def isDesc (a j : Nat) : Bool :=
  (List.range (j + 1)).any fun k => j / 2 ^ k == a

/-- Ordering demanded between the value `x` of a node and the value `y` of a
node in its subtree: on a min level the node is a lower bound, on a max level
an upper bound. -/
def ordv : Bool → Int → Int → Prop
  | true, x, y => x ≤ y
  | false, x, y => y ≤ x

instance (b : Bool) (x y : Int) : Decidable (ordv b x y) :=
  match b with
  | true => inferInstanceAs (Decidable (x ≤ y))
  | false => inferInstanceAs (Decidable (y ≤ x))

/-- `ord l a j`: the value at index `a` is correctly ordered against the value
at index `j` of its subtree, according to the level parity of `a`. -/
def ord (l : List Int) (a j : Nat) : Prop :=
  ordv (is_min_level a) (l.getD a 0) (l.getD j 0)

instance (l : List Int) (a j : Nat) : Decidable (ord l a j) :=
  inferInstanceAs (Decidable (ordv _ _ _))

/-- The min-max heap ordering invariant for a backing list `l` holding `n`
elements at indices `1..n`: every node on a min level is `≤` every value in
its subtree, and every node on a max level is `≥` every value in its
subtree. -/
def heapInv (l : List Int) (n : Nat) : Prop :=
  ∀ a, a < n + 1 → ∀ j, j < n + 1 → 1 ≤ a → isDesc a j = true → ord l a j

instance (l : List Int) (n : Nat) : Decidable (heapInv l n) := by
  unfold heapInv
  infer_instance

/-- Error kinds a Python operation of the class can raise: the explicit
`IndexError("Heap is empty.")` guard, and the implicit `IndexError` of an
out-of-range list assignment. -/
inductive Err where
  | emptyHeap
  | indexOutOfRange
deriving DecidableEq, Repr

/-- The object state of the Python class: backing list and size field. -/
structure MinMaxHeap where
  heap : List Int
  size : Nat
deriving DecidableEq, Repr

namespace MinMaxHeap

/-- Embeds `MinMaxHeap.__init__` (source lines 6-9). -/
def init : MinMaxHeap := ⟨[0], 0⟩

end MinMaxHeap

/-- Fuel-driven embedding of `MinMaxHeap._bubble_up_min` (source lines
67-73): compare with the grandparent `i / 4`, swap and recurse while it is
larger.  The recursion always moves to the strictly smaller index `i / 4`, so
fuel `i` is enough; `bubble_up_min_aux_fuel` below proves the fuel is
irrelevant from `i` upwards. -/
def bubble_up_min_aux : Nat → List Int → Nat → List Int
  | 0, l, _ => l
  | f + 1, l, i =>
    if 1 ≤ parent (parent i) then
      if l.getD i 0 < l.getD (parent (parent i)) 0 then
        bubble_up_min_aux f (swap l i (parent (parent i))) (parent (parent i))
      else l
    else l

/-- `MinMaxHeap._bubble_up_min` (source lines 67-73). -/
def bubble_up_min (l : List Int) (i : Nat) : List Int :=
  bubble_up_min_aux i l i

/-- Fuel-driven embedding of `MinMaxHeap._bubble_up_max` (source lines
75-81), the mirror image of `bubble_up_min_aux`. -/
def bubble_up_max_aux : Nat → List Int → Nat → List Int
  | 0, l, _ => l
  | f + 1, l, i =>
    if 1 ≤ parent (parent i) then
      if l.getD (parent (parent i)) 0 < l.getD i 0 then
        bubble_up_max_aux f (swap l i (parent (parent i))) (parent (parent i))
      else l
    else l

/-- `MinMaxHeap._bubble_up_max` (source lines 75-81). -/
def bubble_up_max (l : List Int) (i : Nat) : List Int :=
  bubble_up_max_aux i l i

/-- Embeds `MinMaxHeap._bubble_up` (source lines 39-65).  At the root it
stops; on a min level a child larger than its parent is swapped up and the
max-level chain continues from the parent, otherwise the min-level chain
continues from `i`; mirrored on a max level. -/
def bubble_up (l : List Int) (i : Nat) : List Int :=
  if i = 1 then l
  else
    if is_min_level i then
      if l.getD (parent i) 0 < l.getD i 0 then bubble_up_max (swap l i (parent i)) (parent i)
      else bubble_up_min l i
    else
      if l.getD i 0 < l.getD (parent i) 0 then bubble_up_min (swap l i (parent i)) (parent i)
      else bubble_up_max l i

/-- Embeds `MinMaxHeap._trickle_down` (source lines 121-128).  The Python
body is literally `pass` (the comment in the source calls it a "Placeholder
for complex trickle-down logic"), so the embedded function returns the list
unchanged. -/
def trickle_down (l : List Int) (_i : Nat) : List Int := l

namespace MinMaxHeap

/-- Embeds `MinMaxHeap.insert` (source lines 34-37): append the item, bump
the size, and bubble up from the last slot. -/
def insert (s : MinMaxHeap) (item : Int) : MinMaxHeap :=
  let h := s.heap ++ [item]
  let sz := s.size + 1
  { heap := bubble_up h sz, size := sz }

/-- Embeds `MinMaxHeap.get_min` (source lines 84-88).  The error carries the
object state at raise time (unchanged here). -/
def get_min (s : MinMaxHeap) : Except (Err × MinMaxHeap) (Int × MinMaxHeap) :=
  if s.size < 1 then .error (.emptyHeap, s)
  else .ok (s.heap.getD 1 0, s)

/-- Embeds `MinMaxHeap.get_max` (source lines 90-103). -/
def get_max (s : MinMaxHeap) : Except (Err × MinMaxHeap) (Int × MinMaxHeap) :=
  if s.size < 1 then .error (.emptyHeap, s)
  else if s.size = 1 then .ok (s.heap.getD 1 0, s)
  else if s.size = 2 then .ok (s.heap.getD 2 0, s)
  else .ok (max (s.heap.getD 2 0) (s.heap.getD 3 0), s)

/-- A call of the `size` field read, in the same value-and-state shape as the
other observers. -/
def size_query (s : MinMaxHeap) : Nat × MinMaxHeap := (s.size, s)

/-- Embeds `MinMaxHeap.delete_min` (source lines 106-119).  The statement
`self.heap[1] = self.heap.pop()` first pops the last element of the list and
then assigns slot 1; when the popped list no longer has a slot 1 (list length
dropped to 1), Python raises `IndexError` at that point, leaving the popped
list and the unchanged `size` field behind — the error case therefore carries
the state `⟨rest, s.size⟩`.  On success the size is decremented and, for a
still non-empty heap, `_trickle_down` (a no-op, see `trickle_down`) runs. -/
def delete_min (s : MinMaxHeap) : Except (Err × MinMaxHeap) (Int × MinMaxHeap) :=
  if s.size < 1 then .error (.emptyHeap, s)
  else
    let min_val := s.heap.getD 1 0
    let popped := (s.heap.getLast?).getD 0
    let rest := s.heap.dropLast
    if 1 < rest.length then
      let repaired := rest.set 1 popped
      let sz := s.size - 1
      .ok (min_val, ⟨if 0 < sz then trickle_down repaired 1 else repaired, sz⟩)
    else .error (.indexOutOfRange, ⟨rest, s.size⟩)

end MinMaxHeap

/-- Well-formedness of the object state: the backing list is the sentinel
slot followed by exactly `size` contiguous elements, i.e. it encodes a
complete binary tree of `size` nodes with no gaps. -/
def wf (s : MinMaxHeap) : Prop := s.heap.length = s.size + 1

instance (s : MinMaxHeap) : Decidable (wf s) :=
  inferInstanceAs (Decidable (_ = _))

/-- The state reached by inserting the elements of `xs`, in order, into a
newly constructed heap. -/
def run_inserts (xs : List Int) : MinMaxHeap :=
  xs.foldl MinMaxHeap.insert MinMaxHeap.init

/-! ### Lemmas about the subtree relation `isDesc` -/

theorem isDesc_iff {a j : Nat} : isDesc a j = true ↔ ∃ k, k < j + 1 ∧ j / 2 ^ k = a := by
  simp [isDesc, List.any_eq_true, List.mem_range, beq_iff_eq]

theorem isDesc_refl (j : Nat) : isDesc j j = true :=
  isDesc_iff.2 ⟨0, by omega, by simp⟩

theorem isDesc_le {a j : Nat} (h : isDesc a j = true) : a ≤ j := by
  obtain ⟨k, _, hdiv⟩ := isDesc_iff.1 h
  calc a = j / 2 ^ k := hdiv.symm
  _ ≤ j := Nat.div_le_self j (2 ^ k)

theorem two_pow_le_of_div_eq {a j k : Nat} (ha : 1 ≤ a) (hdiv : j / 2 ^ k = a) :
    2 ^ k ≤ j := by
  have h1 : 1 ≤ j / 2 ^ k := by omega
  have := (Nat.le_div_iff_mul_le (Nat.pos_pow_of_pos k (by omega))).1 h1
  omega

theorem isDesc_of_ne {a j : Nat} (ha : 1 ≤ a) (h : isDesc a j = true) (hne : j ≠ a) :
    isDesc a (j / 2) = true := by
  obtain ⟨k, hk, hdiv⟩ := isDesc_iff.1 h
  match k, hk, hdiv with
  | 0, hk, hdiv =>
    simp at hdiv
    omega
  | k + 1, hk, hdiv =>
    apply isDesc_iff.2
    have hpow : 2 ^ (k + 1) ≤ j := two_pow_le_of_div_eq ha hdiv
    have hhalf : 2 ^ k ≤ j / 2 := by
      rw [Nat.le_div_iff_mul_le (by omega)]
      have : 2 ^ k * 2 = 2 ^ (k + 1) := by ring
      omega
    have hlt := Nat.lt_two_pow k
    refine ⟨k, by omega, ?_⟩
    rw [Nat.div_div_eq_div_mul]
    have : 2 * 2 ^ k = 2 ^ (k + 1) := by ring
    rw [this]
    exact hdiv

theorem isDesc_step {a j : Nat} (ha : 1 ≤ a) (h : isDesc a (j / 2) = true) :
    isDesc a j = true := by
  obtain ⟨k, hk, hdiv⟩ := isDesc_iff.1 h
  have h2 : (2 : Nat) * 2 ^ k = 2 ^ (k + 1) := by ring
  rw [Nat.div_div_eq_div_mul, h2] at hdiv
  have hpow : 2 ^ (k + 1) ≤ j := two_pow_le_of_div_eq ha hdiv
  have hlt := Nat.lt_two_pow (k + 1)
  exact isDesc_iff.2 ⟨k + 1, by omega, hdiv⟩

theorem isDesc_trans {a b c : Nat} (ha : 1 ≤ a) (h1 : isDesc a b = true)
    (h2 : isDesc b c = true) : isDesc a c = true := by
  obtain ⟨k1, hk1, hdiv1⟩ := isDesc_iff.1 h2
  obtain ⟨k2, hk2, hdiv2⟩ := isDesc_iff.1 h1
  have hdiv : c / 2 ^ (k1 + k2) = a := by
    rw [pow_add, ← Nat.div_div_eq_div_mul, hdiv1, hdiv2]
  have hpow : 2 ^ (k1 + k2) ≤ c := two_pow_le_of_div_eq ha hdiv
  have hlt := Nat.lt_two_pow (k1 + k2)
  exact isDesc_iff.2 ⟨k1 + k2, by omega, hdiv⟩

theorem isDesc_div2 {j : Nat} (hj : 2 ≤ j) : isDesc (j / 2) j = true :=
  isDesc_iff.2 ⟨1, by omega, by rw [pow_one]⟩

theorem isDesc_two_mul {a j : Nat} (h : isDesc a j = true) : j = a ∨ 2 * a ≤ j := by
  obtain ⟨k, hk, hdiv⟩ := isDesc_iff.1 h
  match k, hk, hdiv with
  | 0, hk, hdiv =>
    left
    simpa using hdiv
  | k + 1, hk, hdiv =>
    right
    have h2 : (2 : Nat) ≤ 2 ^ (k + 1) := by
      calc (2 : Nat) = 2 ^ 1 := by norm_num
      _ ≤ 2 ^ (k + 1) := Nat.pow_le_pow_right (by omega) (by omega)
    have hle : j / 2 ^ (k + 1) ≤ j / 2 := Nat.div_le_div_left h2 (by omega)
    have : a ≤ j / 2 := by omega
    have := (Nat.le_div_iff_mul_le (by omega : (0 : Nat) < 2)).1 this
    omega

/-! ### Lemmas about level parity -/

theorem level_aux_congr : ∀ f g j : Nat, j ≤ f → j ≤ g → level_aux f j = level_aux g j := by
  intro f
  induction f with
  | zero =>
    intro g j hf hg
    have hj : j = 0 := by omega
    subst hj
    cases g with
    | zero => rfl
    | succ g => simp [level_aux]
  | succ f ih =>
    intro g j hf hg
    cases g with
    | zero =>
      have hj : j = 0 := by omega
      subst hj
      simp [level_aux]
    | succ g =>
      simp only [level_aux]
      by_cases h2 : 2 ≤ j
      · rw [if_pos h2, if_pos h2, ih g (j / 2) (by omega) (by omega)]
      · rw [if_neg h2, if_neg h2]

theorem level_div2 {i : Nat} (h : 2 ≤ i) : level i = level (i / 2) + 1 := by
  obtain ⟨f, rfl⟩ : ∃ f, i = f + 1 := ⟨i - 1, by omega⟩
  show level_aux (f + 1) (f + 1) = level ((f + 1) / 2) + 1
  simp only [level_aux, if_pos h]
  rw [level_aux_congr f ((f + 1) / 2) ((f + 1) / 2) (by omega) (le_refl _)]
  rfl

theorem is_min_level_div2 {i : Nat} (h : 2 ≤ i) :
    is_min_level (i / 2) = !is_min_level i := by
  have h1 : ¬ i = 0 := by omega
  have h2 : ¬ i / 2 = 0 := by omega
  simp only [is_min_level, if_neg h1, if_neg h2]
  rw [level_div2 h]
  rcases Nat.mod_two_eq_zero_or_one (level (i / 2)) with hm | hm
  · have hs : (level (i / 2) + 1) % 2 = 1 := by omega
    rw [hm, hs]
    rfl
  · have hs : (level (i / 2) + 1) % 2 = 0 := by omega
    rw [hm, hs]
    rfl

theorem is_min_level_div4 {i : Nat} (h : 4 ≤ i) :
    is_min_level (i / 2 / 2) = is_min_level i := by
  rw [is_min_level_div2 (by omega : 2 ≤ i / 2), is_min_level_div2 (by omega : 2 ≤ i),
    Bool.not_not]

theorem eq_one_of_min_level {i : Nat} (h1 : 1 ≤ i) (h3 : i ≤ 3)
    (hm : is_min_level i = true) : i = 1 := by
  interval_cases i
  · rfl
  · exact absurd hm (by decide)
  · exact absurd hm (by decide)

/-! ### Lemmas about list access, `swap` and append -/

theorem getD_set_self {l : List Int} {i : Nat} {v : Int} (h : i < l.length) :
    (l.set i v).getD i 0 = v := by
  rw [List.getD_eq_getElem?_getD, List.getElem?_set_self h]
  rfl

theorem getD_set_ne {l : List Int} {i j : Nat} {v : Int} (h : i ≠ j) :
    (l.set i v).getD j 0 = l.getD j 0 := by
  rw [List.getD_eq_getElem?_getD, List.getElem?_set_ne h, ← List.getD_eq_getElem?_getD]

theorem length_swap (l : List Int) (i j : Nat) : (swap l i j).length = l.length := by
  simp [swap]

theorem getD_swap_fst {l : List Int} {i j : Nat} (hij : i ≠ j) (hi : i < l.length) :
    (swap l i j).getD i 0 = l.getD j 0 := by
  unfold swap
  rw [getD_set_ne (Ne.symm hij), getD_set_self hi]

theorem getD_swap_snd {l : List Int} {i j : Nat} (hj : j < l.length) :
    (swap l i j).getD j 0 = l.getD i 0 := by
  unfold swap
  rw [getD_set_self (by simpa using hj)]

theorem getD_swap_other {l : List Int} {i j k : Nat} (hki : k ≠ i) (hkj : k ≠ j) :
    (swap l i j).getD k 0 = l.getD k 0 := by
  unfold swap
  rw [getD_set_ne (Ne.symm hkj), getD_set_ne (Ne.symm hki)]

theorem getD_append_left {l : List Int} {x : Int} {j : Nat} (h : j < l.length) :
    (l ++ [x]).getD j 0 = l.getD j 0 := by
  rw [List.getD_eq_getElem?_getD, List.getElem?_append, if_pos h,
    ← List.getD_eq_getElem?_getD]

theorem getD_append_last (l : List Int) (x : Int) :
    (l ++ [x]).getD l.length 0 = x := by
  rw [List.getD_eq_getElem?_getD, List.getElem?_concat_length]
  rfl

/-! ### Fuel irrelevance and length preservation for the bubble procedures -/

theorem bubble_up_min_aux_congr : ∀ f g : Nat, ∀ l : List Int, ∀ i : Nat, i ≤ f → i ≤ g →
    bubble_up_min_aux f l i = bubble_up_min_aux g l i := by
  intro f
  induction f with
  | zero =>
    intro g l i hf hg
    have hi : i = 0 := by omega
    subst hi
    cases g with
    | zero => rfl
    | succ g => simp [bubble_up_min_aux, parent]
  | succ f ih =>
    intro g l i hf hg
    cases g with
    | zero =>
      have hi : i = 0 := by omega
      subst hi
      simp [bubble_up_min_aux, parent]
    | succ g =>
      simp only [bubble_up_min_aux]
      by_cases hgp : 1 ≤ parent (parent i)
      · rw [if_pos hgp, if_pos hgp]
        have hgplt : parent (parent i) ≤ f ∧ parent (parent i) ≤ g := by
          simp only [parent] at hgp ⊢
          omega
        by_cases hlt : l.getD i 0 < l.getD (parent (parent i)) 0
        · rw [if_pos hlt, if_pos hlt]
          exact ih g _ _ hgplt.1 hgplt.2
        · rw [if_neg hlt, if_neg hlt]
      · rw [if_neg hgp, if_neg hgp]

theorem bubble_up_max_aux_congr : ∀ f g : Nat, ∀ l : List Int, ∀ i : Nat, i ≤ f → i ≤ g →
    bubble_up_max_aux f l i = bubble_up_max_aux g l i := by
  intro f
  induction f with
  | zero =>
    intro g l i hf hg
    have hi : i = 0 := by omega
    subst hi
    cases g with
    | zero => rfl
    | succ g => simp [bubble_up_max_aux, parent]
  | succ f ih =>
    intro g l i hf hg
    cases g with
    | zero =>
      have hi : i = 0 := by omega
      subst hi
      simp [bubble_up_max_aux, parent]
    | succ g =>
      simp only [bubble_up_max_aux]
      by_cases hgp : 1 ≤ parent (parent i)
      · rw [if_pos hgp, if_pos hgp]
        have hgplt : parent (parent i) ≤ f ∧ parent (parent i) ≤ g := by
          simp only [parent] at hgp ⊢
          omega
        by_cases hlt : l.getD (parent (parent i)) 0 < l.getD i 0
        · rw [if_pos hlt, if_pos hlt]
          exact ih g _ _ hgplt.1 hgplt.2
        · rw [if_neg hlt, if_neg hlt]
      · rw [if_neg hgp, if_neg hgp]

theorem bubble_up_min_eq (l : List Int) (i : Nat) :
    bubble_up_min l i =
      if 1 ≤ parent (parent i) then
        if l.getD i 0 < l.getD (parent (parent i)) 0 then
          bubble_up_min (swap l i (parent (parent i))) (parent (parent i))
        else l
      else l := by
  cases i with
  | zero => simp [bubble_up_min, bubble_up_min_aux, parent]
  | succ f =>
    show bubble_up_min_aux (f + 1) l (f + 1) = _
    simp only [bubble_up_min_aux]
    by_cases hgp : 1 ≤ parent (parent (f + 1))
    · rw [if_pos hgp, if_pos hgp]
      by_cases hlt : l.getD (f + 1) 0 < l.getD (parent (parent (f + 1))) 0
      · rw [if_pos hlt, if_pos hlt]
        apply bubble_up_min_aux_congr
        · simp only [parent] at hgp ⊢
          omega
        · exact le_refl _
      · rw [if_neg hlt, if_neg hlt]
    · rw [if_neg hgp, if_neg hgp]

theorem bubble_up_max_eq (l : List Int) (i : Nat) :
    bubble_up_max l i =
      if 1 ≤ parent (parent i) then
        if l.getD (parent (parent i)) 0 < l.getD i 0 then
          bubble_up_max (swap l i (parent (parent i))) (parent (parent i))
        else l
      else l := by
  cases i with
  | zero => simp [bubble_up_max, bubble_up_max_aux, parent]
  | succ f =>
    show bubble_up_max_aux (f + 1) l (f + 1) = _
    simp only [bubble_up_max_aux]
    by_cases hgp : 1 ≤ parent (parent (f + 1))
    · rw [if_pos hgp, if_pos hgp]
      by_cases hlt : l.getD (parent (parent (f + 1))) 0 < l.getD (f + 1) 0
      · rw [if_pos hlt, if_pos hlt]
        apply bubble_up_max_aux_congr
        · simp only [parent] at hgp ⊢
          omega
        · exact le_refl _
      · rw [if_neg hlt, if_neg hlt]
    · rw [if_neg hgp, if_neg hgp]

theorem length_bubble_up_min_aux : ∀ f : Nat, ∀ l : List Int, ∀ i : Nat,
    (bubble_up_min_aux f l i).length = l.length := by
  intro f
  induction f with
  | zero => intro l i; rfl
  | succ f ih =>
    intro l i
    simp only [bubble_up_min_aux]
    by_cases hgp : 1 ≤ parent (parent i)
    · rw [if_pos hgp]
      by_cases hlt : l.getD i 0 < l.getD (parent (parent i)) 0
      · rw [if_pos hlt, ih, length_swap]
      · rw [if_neg hlt]
    · rw [if_neg hgp]

theorem length_bubble_up_max_aux : ∀ f : Nat, ∀ l : List Int, ∀ i : Nat,
    (bubble_up_max_aux f l i).length = l.length := by
  intro f
  induction f with
  | zero => intro l i; rfl
  | succ f ih =>
    intro l i
    simp only [bubble_up_max_aux]
    by_cases hgp : 1 ≤ parent (parent i)
    · rw [if_pos hgp]
      by_cases hlt : l.getD (parent (parent i)) 0 < l.getD i 0
      · rw [if_pos hlt, ih, length_swap]
      · rw [if_neg hlt]
    · rw [if_neg hgp]

theorem length_bubble_up (l : List Int) (i : Nat) :
    (bubble_up l i).length = l.length := by
  unfold bubble_up
  by_cases h1 : i = 1
  · rw [if_pos h1]
  · rw [if_neg h1]
    by_cases hm : is_min_level i
    · rw [if_pos hm]
      by_cases hlt : l.getD (parent i) 0 < l.getD i 0
      · rw [if_pos hlt]
        show (bubble_up_max_aux _ _ _).length = _
        rw [length_bubble_up_max_aux, length_swap]
      · rw [if_neg hlt]
        exact length_bubble_up_min_aux i l i
    · rw [if_neg hm]
      by_cases hlt : l.getD i 0 < l.getD (parent i) 0
      · rw [if_pos hlt]
        show (bubble_up_min_aux _ _ _).length = _
        rw [length_bubble_up_min_aux, length_swap]
      · rw [if_neg hlt]
        exact length_bubble_up_max_aux i l i

/-! ### Lemmas about `ord` -/

theorem ord_refl (l : List Int) (a : Nat) : ord l a a := by
  unfold ord
  cases h : is_min_level a <;> exact le_refl _

theorem ord_min {l : List Int} {a j : Nat} (h : is_min_level a = true) :
    ord l a j ↔ l.getD a 0 ≤ l.getD j 0 := by
  unfold ord
  rw [h]
  exact Iff.rfl

theorem ord_max {l : List Int} {a j : Nat} (h : is_min_level a = false) :
    ord l a j ↔ l.getD j 0 ≤ l.getD a 0 := by
  unfold ord
  rw [h]
  exact Iff.rfl

theorem ord_transfer {l1 l2 : List Int} {a j b k : Nat}
    (hpar : is_min_level b = is_min_level a)
    (hb : l2.getD b 0 = l1.getD a 0) (hk : l2.getD k 0 = l1.getD j 0)
    (h : ord l1 a j) : ord l2 b k := by
  unfold ord at h ⊢
  rw [hpar, hb, hk]
  exact h

/-- The precondition under which a same-parity bubble chain starting at
index `i` restores the full heap invariant: every ancestor/descendant pair
avoiding `i` is correctly ordered, `i` is correctly ordered against its own
subtree, and every strict ancestor of `i` of the opposite level parity is
correctly ordered against `i`.  Only same-parity strict ancestors of `i` may
be out of order with it — exactly the violations the grandparent chain
repairs. -/
structure BubbleInv (l : List Int) (n i : Nat) : Prop where
  hi : 1 ≤ i
  hin : i ≤ n
  hlen : l.length = n + 1
  pairs : ∀ a j, 1 ≤ a → isDesc a j = true → j ≤ n → a ≠ i → j ≠ i → ord l a j
  below : ∀ j, isDesc i j = true → j ≤ n → ord l i j
  above : ∀ a, 1 ≤ a → isDesc a i = true → a ≠ i →
    is_min_level a = !is_min_level i → ord l a i

theorem bubble_up_min_heapInv :
    ∀ i : Nat, ∀ l : List Int, ∀ n : Nat, BubbleInv l n i → is_min_level i = true →
      heapInv (bubble_up_min l i) n := by
  intro i
  induction i using Nat.strong_induction_on with
  | _ i ih =>
    intro l n inv hmin
    have hni : i ≤ n := inv.hin
    have h1i : 1 ≤ i := inv.hi
    rw [bubble_up_min_eq]
    simp only [parent]
    by_cases hgp : 1 ≤ i / 2 / 2
    · rw [if_pos hgp]
      have hi4 : 4 ≤ i := by omega
      have hming : is_min_level (i / 2 / 2) = true := by
        rw [is_min_level_div4 hi4]
        exact hmin
      have hparp : is_min_level (i / 2) = false := by
        rw [is_min_level_div2 (by omega : 2 ≤ i), hmin]
        rfl
      have hil : i < l.length := by rw [inv.hlen]; omega
      have hgl : i / 2 / 2 < l.length := by rw [inv.hlen]; omega
      have hd_p_i : isDesc (i / 2) i = true := isDesc_div2 (by omega)
      have hd_g_p : isDesc (i / 2 / 2) (i / 2) = true := isDesc_div2 (by omega)
      have hd_g_i : isDesc (i / 2 / 2) i = true := isDesc_trans hgp hd_g_p hd_p_i
      by_cases hlt : l.getD i 0 < l.getD (i / 2 / 2) 0
      · rw [if_pos hlt]
        have hv_i : (swap l i (i / 2 / 2)).getD i 0 = l.getD (i / 2 / 2) 0 :=
          getD_swap_fst (by omega) hil
        have hv_g : (swap l i (i / 2 / 2)).getD (i / 2 / 2) 0 = l.getD i 0 :=
          getD_swap_snd hgl
        have hv_o : ∀ k, k ≠ i → k ≠ i / 2 / 2 →
            (swap l i (i / 2 / 2)).getD k 0 = l.getD k 0 :=
          fun k h1 h2 => getD_swap_other h1 h2
        apply ih (i / 2 / 2) (by omega)
        · constructor
          · exact hgp
          · omega
          · rw [length_swap]; exact inv.hlen
          · -- pairs for the swapped list, avoiding the grandparent
            intro a j h1 hdesc hj hag hjg
            by_cases hai : a = i
            · by_cases hji : j = a
              · rw [hji]; exact ord_refl _ _
              · have hjine : j ≠ i := fun h => hji (h.trans hai.symm)
                rw [hai] at hdesc ⊢
                rw [ord_min hmin, hv_i, hv_o j hjine hjg]
                have hdgj : isDesc (i / 2 / 2) j = true :=
                  isDesc_trans hgp hd_g_i hdesc
                have := inv.pairs (i / 2 / 2) j hgp hdgj hj (by omega) hjine
                exact (ord_min hming).1 this
            · by_cases hji : j = i
              · rw [hji] at hdesc ⊢
                by_cases hap : a = i / 2
                · rw [hap]
                  rw [ord_max hparp, hv_i, hv_o (i / 2) (by omega) (by omega)]
                  have := inv.pairs (i / 2 / 2) (i / 2) hgp hd_g_p (by omega)
                    (by omega) (by omega)
                  exact (ord_min hming).1 this
                · have had2 : isDesc a (i / 2) = true :=
                    isDesc_of_ne h1 hdesc (Ne.symm hai)
                  have hadg : isDesc a (i / 2 / 2) = true :=
                    isDesc_of_ne h1 had2 (Ne.symm hap)
                  have hold := inv.pairs a (i / 2 / 2) h1 hadg (by omega) hai
                    (by omega)
                  exact ord_transfer rfl (hv_o a hai hag) hv_i hold
              · exact ord_transfer rfl (hv_o a hai hag) (hv_o j hji hjg)
                  (inv.pairs a j h1 hdesc hj hai hji)
          · -- the value moving up is below everything in the subtree
            intro j hdesc hj
            rw [ord_min hming, hv_g]
            by_cases hjg : j = i / 2 / 2
            · rw [hjg, hv_g]
            · by_cases hji : j = i
              · rw [hji, hv_i]; exact le_of_lt hlt
              · rw [hv_o j hji hjg]
                have := inv.pairs (i / 2 / 2) j hgp hdesc hj (by omega) hji
                exact le_trans (le_of_lt hlt) ((ord_min hming).1 this)
          · -- opposite-parity strict ancestors of the grandparent
            intro a h1 hdesc hag hpar
            rw [hming] at hpar
            have hfa : is_min_level a = false := by simpa using hpar
            have hale : a ≤ i / 2 / 2 := isDesc_le hdesc
            rw [ord_max hfa, hv_g, hv_o a (by omega) hag]
            have := inv.above a h1 (isDesc_trans h1 hdesc hd_g_i) (by omega)
              (by rw [hfa, hmin]; rfl)
            exact (ord_max hfa).1 this
        · exact hming
      · rw [if_neg hlt]
        have hwv : l.getD (i / 2 / 2) 0 ≤ l.getD i 0 := not_lt.1 hlt
        intro a ha j hj h1 hdesc
        by_cases hai : a = i
        · rw [hai] at hdesc ⊢
          exact inv.below j hdesc (by omega)
        · by_cases hji : j = i
          · rw [hji] at hdesc ⊢
            by_cases hpar : is_min_level a = true
            · by_cases hap : a = i / 2
              · exact absurd (hap ▸ hpar) (by rw [hparp]; exact Bool.false_ne_true)
              · have had2 : isDesc a (i / 2) = true :=
                  isDesc_of_ne h1 hdesc (Ne.symm hai)
                have hadg : isDesc a (i / 2 / 2) = true :=
                  isDesc_of_ne h1 had2 (Ne.symm hap)
                by_cases hag : a = i / 2 / 2
                · rw [hag]
                  exact (ord_min hming).2 hwv
                · have := inv.pairs a (i / 2 / 2) h1 hadg (by omega) hai (by omega)
                  exact (ord_min hpar).2 (le_trans ((ord_min hpar).1 this) hwv)
            · have hfa : is_min_level a = false := by
                cases hb : is_min_level a
                · rfl
                · exact absurd hb hpar
              exact inv.above a h1 hdesc hai (by rw [hfa, hmin]; rfl)
          · exact inv.pairs a j h1 hdesc (by omega) hai hji
    · rw [if_neg hgp]
      have hi1 : i = 1 := eq_one_of_min_level inv.hi (by omega) hmin
      intro a ha j hj h1 hdesc
      by_cases hai : a = i
      · rw [hai] at hdesc ⊢
        exact inv.below j hdesc (by omega)
      · have hji : j ≠ i := by
          intro hji
          apply hai
          have hle := isDesc_le hdesc
          omega
        exact inv.pairs a j h1 hdesc (by omega) hai hji

theorem bubble_up_max_heapInv :
    ∀ i : Nat, ∀ l : List Int, ∀ n : Nat, BubbleInv l n i → is_min_level i = false →
      heapInv (bubble_up_max l i) n := by
  intro i
  induction i using Nat.strong_induction_on with
  | _ i ih =>
    intro l n inv hmax
    have hni : i ≤ n := inv.hin
    have h1i : 1 ≤ i := inv.hi
    rw [bubble_up_max_eq]
    simp only [parent]
    by_cases hgp : 1 ≤ i / 2 / 2
    · rw [if_pos hgp]
      have hi4 : 4 ≤ i := by omega
      have hmaxg : is_min_level (i / 2 / 2) = false := by
        rw [is_min_level_div4 hi4]
        exact hmax
      have hparp : is_min_level (i / 2) = true := by
        rw [is_min_level_div2 (by omega : 2 ≤ i), hmax]
        rfl
      have hil : i < l.length := by rw [inv.hlen]; omega
      have hgl : i / 2 / 2 < l.length := by rw [inv.hlen]; omega
      have hd_p_i : isDesc (i / 2) i = true := isDesc_div2 (by omega)
      have hd_g_p : isDesc (i / 2 / 2) (i / 2) = true := isDesc_div2 (by omega)
      have hd_g_i : isDesc (i / 2 / 2) i = true := isDesc_trans hgp hd_g_p hd_p_i
      by_cases hlt : l.getD (i / 2 / 2) 0 < l.getD i 0
      · rw [if_pos hlt]
        have hv_i : (swap l i (i / 2 / 2)).getD i 0 = l.getD (i / 2 / 2) 0 :=
          getD_swap_fst (by omega) hil
        have hv_g : (swap l i (i / 2 / 2)).getD (i / 2 / 2) 0 = l.getD i 0 :=
          getD_swap_snd hgl
        have hv_o : ∀ k, k ≠ i → k ≠ i / 2 / 2 →
            (swap l i (i / 2 / 2)).getD k 0 = l.getD k 0 :=
          fun k h1 h2 => getD_swap_other h1 h2
        apply ih (i / 2 / 2) (by omega)
        · constructor
          · exact hgp
          · omega
          · rw [length_swap]; exact inv.hlen
          · -- pairs for the swapped list, avoiding the grandparent
            intro a j h1 hdesc hj hag hjg
            by_cases hai : a = i
            · by_cases hji : j = a
              · rw [hji]; exact ord_refl _ _
              · have hjine : j ≠ i := fun h => hji (h.trans hai.symm)
                rw [hai] at hdesc ⊢
                rw [ord_max hmax, hv_i, hv_o j hjine hjg]
                have hdgj : isDesc (i / 2 / 2) j = true :=
                  isDesc_trans hgp hd_g_i hdesc
                have := inv.pairs (i / 2 / 2) j hgp hdgj hj (by omega) hjine
                exact (ord_max hmaxg).1 this
            · by_cases hji : j = i
              · rw [hji] at hdesc ⊢
                by_cases hap : a = i / 2
                · rw [hap]
                  rw [ord_min hparp, hv_i, hv_o (i / 2) (by omega) (by omega)]
                  have := inv.pairs (i / 2 / 2) (i / 2) hgp hd_g_p (by omega)
                    (by omega) (by omega)
                  exact (ord_max hmaxg).1 this
                · have had2 : isDesc a (i / 2) = true :=
                    isDesc_of_ne h1 hdesc (Ne.symm hai)
                  have hadg : isDesc a (i / 2 / 2) = true :=
                    isDesc_of_ne h1 had2 (Ne.symm hap)
                  have hold := inv.pairs a (i / 2 / 2) h1 hadg (by omega) hai
                    (by omega)
                  exact ord_transfer rfl (hv_o a hai hag) hv_i hold
              · exact ord_transfer rfl (hv_o a hai hag) (hv_o j hji hjg)
                  (inv.pairs a j h1 hdesc hj hai hji)
          · -- the value moving up is above everything in the subtree
            intro j hdesc hj
            rw [ord_max hmaxg, hv_g]
            by_cases hjg : j = i / 2 / 2
            · rw [hjg, hv_g]
            · by_cases hji : j = i
              · rw [hji, hv_i]; exact le_of_lt hlt
              · rw [hv_o j hji hjg]
                have := inv.pairs (i / 2 / 2) j hgp hdesc hj (by omega) hji
                exact le_trans ((ord_max hmaxg).1 this) (le_of_lt hlt)
          · -- opposite-parity strict ancestors of the grandparent
            intro a h1 hdesc hag hpar
            rw [hmaxg] at hpar
            have hfa : is_min_level a = true := by simpa using hpar
            have hale : a ≤ i / 2 / 2 := isDesc_le hdesc
            rw [ord_min hfa, hv_g, hv_o a (by omega) hag]
            have := inv.above a h1 (isDesc_trans h1 hdesc hd_g_i) (by omega)
              (by rw [hfa, hmax]; rfl)
            exact (ord_min hfa).1 this
        · exact hmaxg
      · rw [if_neg hlt]
        have hwv : l.getD i 0 ≤ l.getD (i / 2 / 2) 0 := not_lt.1 hlt
        intro a ha j hj h1 hdesc
        by_cases hai : a = i
        · rw [hai] at hdesc ⊢
          exact inv.below j hdesc (by omega)
        · by_cases hji : j = i
          · rw [hji] at hdesc ⊢
            by_cases hpar : is_min_level a = true
            · exact inv.above a h1 hdesc hai (by rw [hpar, hmax]; rfl)
            · have hfa : is_min_level a = false := by
                cases hb : is_min_level a
                · rfl
                · exact absurd hb hpar
              by_cases hap : a = i / 2
              · exact absurd (hap ▸ hfa) (by rw [hparp]; decide)
              · have had2 : isDesc a (i / 2) = true :=
                  isDesc_of_ne h1 hdesc (Ne.symm hai)
                have hadg : isDesc a (i / 2 / 2) = true :=
                  isDesc_of_ne h1 had2 (Ne.symm hap)
                by_cases hag : a = i / 2 / 2
                · rw [hag]
                  exact (ord_max hmaxg).2 hwv
                · have := inv.pairs a (i / 2 / 2) h1 hadg (by omega) hai (by omega)
                  exact (ord_max hfa).2 (le_trans hwv ((ord_max hfa).1 this))
          · exact inv.pairs a j h1 hdesc (by omega) hai hji
    · rw [if_neg hgp]
      have hi2 : 2 ≤ i := by
        rcases Nat.lt_or_ge i 2 with h | h
        · exfalso
          have h1 : i = 1 := by omega
          rw [h1] at hmax
          exact absurd hmax (by decide)
        · exact h
      intro a ha j hj h1 hdesc
      by_cases hai : a = i
      · rw [hai] at hdesc ⊢
        exact inv.below j hdesc (by omega)
      · by_cases hji : j = i
        · rw [hji] at hdesc ⊢
          have had2 : isDesc a (i / 2) = true := isDesc_of_ne h1 hdesc (Ne.symm hai)
          have hle := isDesc_le had2
          have ha1 : a = 1 := by omega
          exact inv.above a h1 hdesc hai (by rw [ha1, hmax]; decide)
        · exact inv.pairs a j h1 hdesc (by omega) hai hji

/-- Appending a fresh element at the first free slot and running the
two-level-aware bubble-up restores the min-max heap invariant. -/
theorem bubble_up_heapInv (l : List Int) (n : Nat) (x : Int)
    (hlen : l.length = n + 1) (hinv : heapInv l n) :
    heapInv (bubble_up (l ++ [x]) (n + 1)) (n + 1) := by
  have hget : ∀ j, j ≤ n → (l ++ [x]).getD j 0 = l.getD j 0 := by
    intro j hj
    exact getD_append_left (by omega)
  have hgetx : (l ++ [x]).getD (n + 1) 0 = x := by
    have h := getD_append_last l x
    rwa [hlen] at h
  have hlen2 : (l ++ [x]).length = n + 2 := by simp [hlen]
  have pairs2 : ∀ a j, 1 ≤ a → isDesc a j = true → j ≤ n + 1 → a ≠ n + 1 →
      j ≠ n + 1 → ord (l ++ [x]) a j := by
    intro a j h1 hdesc hj ha hj2
    have hjn : j ≤ n := by omega
    have han : a ≤ j := isDesc_le hdesc
    exact ord_transfer rfl (hget a (by omega)) (hget j hjn)
      (hinv a (by omega) j (by omega) h1 hdesc)
  have below2 : ∀ j, isDesc (n + 1) j = true → j ≤ n + 1 →
      ord (l ++ [x]) (n + 1) j := by
    intro j hdesc hj
    rcases isDesc_two_mul hdesc with h | h
    · rw [h]; exact ord_refl _ _
    · omega
  unfold bubble_up
  by_cases h1 : n + 1 = 1
  · rw [if_pos h1]
    intro a ha j hj ha1 hdesc
    have haeq : a = n + 1 := by omega
    rw [haeq] at hdesc ⊢
    exact below2 j hdesc (by omega)
  · rw [if_neg h1]
    simp only [parent]
    have hp1 : 1 ≤ (n + 1) / 2 := by omega
    have hpn : (n + 1) / 2 ≤ n := by omega
    have hpne : (n + 1) / 2 ≠ n + 1 := by omega
    have hil : n + 1 < (l ++ [x]).length := by omega
    have hpl : (n + 1) / 2 < (l ++ [x]).length := by omega
    by_cases hm : is_min_level (n + 1) = true
    · rw [if_pos hm]
      have hmp : is_min_level ((n + 1) / 2) = false := by
        rw [is_min_level_div2 (by omega : 2 ≤ n + 1), hm]
        rfl
      by_cases hlt : (l ++ [x]).getD ((n + 1) / 2) 0 < (l ++ [x]).getD (n + 1) 0
      · rw [if_pos hlt]
        rw [hgetx] at hlt
        have hv_i : (swap (l ++ [x]) (n + 1) ((n + 1) / 2)).getD (n + 1) 0 =
            (l ++ [x]).getD ((n + 1) / 2) 0 := getD_swap_fst (by omega) hil
        have hv_p : (swap (l ++ [x]) (n + 1) ((n + 1) / 2)).getD ((n + 1) / 2) 0 =
            x := by rw [getD_swap_snd hpl, hgetx]
        have hv_o : ∀ k, k ≠ n + 1 → k ≠ (n + 1) / 2 →
            (swap (l ++ [x]) (n + 1) ((n + 1) / 2)).getD k 0 =
              (l ++ [x]).getD k 0 :=
          fun k hk1 hk2 => getD_swap_other hk1 hk2
        apply bubble_up_max_heapInv
        · constructor
          · exact hp1
          · omega
          · rw [length_swap]; exact hlen2
          · intro a j ha1 hdesc hj hap hjp
            by_cases hai : a = n + 1
            · rw [hai] at hdesc ⊢
              rcases isDesc_two_mul hdesc with h | h
              · rw [h]; exact ord_refl _ _
              · omega
            · by_cases hji : j = n + 1
              · rw [hji] at hdesc ⊢
                have had2 : isDesc a ((n + 1) / 2) = true :=
                  isDesc_of_ne ha1 hdesc (Ne.symm hai)
                exact ord_transfer rfl (hv_o a hai hap) hv_i
                  (pairs2 a ((n + 1) / 2) ha1 had2 (by omega) hai hpne)
              · exact ord_transfer rfl (hv_o a hai hap) (hv_o j hji hjp)
                  (pairs2 a j ha1 hdesc hj hai hji)
          · intro j hdesc hj
            rw [ord_max hmp, hv_p]
            by_cases hjp : j = (n + 1) / 2
            · rw [hjp, hv_p]
            · by_cases hji : j = n + 1
              · rw [hji, hv_i]
                exact le_of_lt hlt
              · rw [hv_o j hji hjp]
                have := pairs2 ((n + 1) / 2) j hp1 hdesc hj hpne hji
                exact le_trans ((ord_max hmp).1 this) (le_of_lt hlt)
          · intro a ha1 hdesc hane hpar
            rw [hmp] at hpar
            have hfa : is_min_level a = true := by simpa using hpar
            have hale : a ≤ (n + 1) / 2 := isDesc_le hdesc
            rw [ord_min hfa, hv_p, hv_o a (by omega) hane]
            have := pairs2 a ((n + 1) / 2) ha1 hdesc (by omega) (by omega) hpne
            exact le_trans ((ord_min hfa).1 this) (le_of_lt hlt)
        · exact hmp
      · rw [if_neg hlt]
        rw [hgetx] at hlt
        have hxp : x ≤ (l ++ [x]).getD ((n + 1) / 2) 0 := not_lt.1 hlt
        apply bubble_up_min_heapInv
        · constructor
          · omega
          · exact le_refl _
          · exact hlen2
          · exact pairs2
          · exact below2
          · intro a ha1 hdesc hane hpar
            rw [hm] at hpar
            have hfa : is_min_level a = false := by simpa using hpar
            have had2 : isDesc a ((n + 1) / 2) = true :=
              isDesc_of_ne ha1 hdesc (Ne.symm hane)
            rw [ord_max hfa, hgetx]
            by_cases hap : a = (n + 1) / 2
            · rw [hap]; exact hxp
            · have := pairs2 a ((n + 1) / 2) ha1 had2 (by omega) hane hpne
              exact le_trans hxp ((ord_max hfa).1 this)
        · exact hm
    · rw [if_neg hm]
      have hmf : is_min_level (n + 1) = false := by
        cases hb : is_min_level (n + 1)
        · rfl
        · exact absurd hb hm
      have hmp : is_min_level ((n + 1) / 2) = true := by
        rw [is_min_level_div2 (by omega : 2 ≤ n + 1), hmf]
        rfl
      by_cases hlt : (l ++ [x]).getD (n + 1) 0 < (l ++ [x]).getD ((n + 1) / 2) 0
      · rw [if_pos hlt]
        rw [hgetx] at hlt
        have hv_i : (swap (l ++ [x]) (n + 1) ((n + 1) / 2)).getD (n + 1) 0 =
            (l ++ [x]).getD ((n + 1) / 2) 0 := getD_swap_fst (by omega) hil
        have hv_p : (swap (l ++ [x]) (n + 1) ((n + 1) / 2)).getD ((n + 1) / 2) 0 =
            x := by rw [getD_swap_snd hpl, hgetx]
        have hv_o : ∀ k, k ≠ n + 1 → k ≠ (n + 1) / 2 →
            (swap (l ++ [x]) (n + 1) ((n + 1) / 2)).getD k 0 =
              (l ++ [x]).getD k 0 :=
          fun k hk1 hk2 => getD_swap_other hk1 hk2
        apply bubble_up_min_heapInv
        · constructor
          · exact hp1
          · omega
          · rw [length_swap]; exact hlen2
          · intro a j ha1 hdesc hj hap hjp
            by_cases hai : a = n + 1
            · rw [hai] at hdesc ⊢
              rcases isDesc_two_mul hdesc with h | h
              · rw [h]; exact ord_refl _ _
              · omega
            · by_cases hji : j = n + 1
              · rw [hji] at hdesc ⊢
                have had2 : isDesc a ((n + 1) / 2) = true :=
                  isDesc_of_ne ha1 hdesc (Ne.symm hai)
                exact ord_transfer rfl (hv_o a hai hap) hv_i
                  (pairs2 a ((n + 1) / 2) ha1 had2 (by omega) hai hpne)
              · exact ord_transfer rfl (hv_o a hai hap) (hv_o j hji hjp)
                  (pairs2 a j ha1 hdesc hj hai hji)
          · intro j hdesc hj
            rw [ord_min hmp, hv_p]
            by_cases hjp : j = (n + 1) / 2
            · rw [hjp, hv_p]
            · by_cases hji : j = n + 1
              · rw [hji, hv_i]
                exact le_of_lt hlt
              · rw [hv_o j hji hjp]
                have := pairs2 ((n + 1) / 2) j hp1 hdesc hj hpne hji
                exact le_trans (le_of_lt hlt) ((ord_min hmp).1 this)
          · intro a ha1 hdesc hane hpar
            rw [hmp] at hpar
            have hfa : is_min_level a = false := by simpa using hpar
            have hale : a ≤ (n + 1) / 2 := isDesc_le hdesc
            rw [ord_max hfa, hv_p, hv_o a (by omega) hane]
            have := pairs2 a ((n + 1) / 2) ha1 hdesc (by omega) (by omega) hpne
            exact le_trans (le_of_lt hlt) ((ord_max hfa).1 this)
        · exact hmp
      · rw [if_neg hlt]
        rw [hgetx] at hlt
        have hxp : (l ++ [x]).getD ((n + 1) / 2) 0 ≤ x := not_lt.1 hlt
        apply bubble_up_max_heapInv
        · constructor
          · omega
          · exact le_refl _
          · exact hlen2
          · exact pairs2
          · exact below2
          · intro a ha1 hdesc hane hpar
            rw [hmf] at hpar
            have hfa : is_min_level a = true := by simpa using hpar
            have had2 : isDesc a ((n + 1) / 2) = true :=
              isDesc_of_ne ha1 hdesc (Ne.symm hane)
            rw [ord_min hfa, hgetx]
            by_cases hap : a = (n + 1) / 2
            · rw [hap]; exact hxp
            · have := pairs2 a ((n + 1) / 2) ha1 had2 (by omega) hane hpne
              exact le_trans ((ord_min hfa).1 this) hxp
        · exact hmf

theorem insert_preserves (s : MinMaxHeap) (x : Int) (hwf : wf s)
    (hinv : heapInv s.heap s.size) :
    wf (s.insert x) ∧ heapInv (s.insert x).heap (s.insert x).size := by
  unfold wf at hwf
  constructor
  · show (bubble_up (s.heap ++ [x]) (s.size + 1)).length = s.size + 1 + 1
    rw [length_bubble_up]
    simp [hwf]
  · show heapInv (bubble_up (s.heap ++ [x]) (s.size + 1)) (s.size + 1)
    exact bubble_up_heapInv s.heap s.size x hwf hinv

theorem run_inserts_wf_inv (xs : List Int) :
    wf (run_inserts xs) ∧ heapInv (run_inserts xs).heap (run_inserts xs).size := by
  suffices h : ∀ ys : List Int, ∀ s : MinMaxHeap, wf s → heapInv s.heap s.size →
      wf (ys.foldl MinMaxHeap.insert s) ∧
        heapInv (ys.foldl MinMaxHeap.insert s).heap (ys.foldl MinMaxHeap.insert s).size by
    exact h xs MinMaxHeap.init (by decide) (by decide)
  intro ys
  induction ys with
  | nil => exact fun s h1 h2 => ⟨h1, h2⟩
  | cons y ys ih =>
    intro s h1 h2
    have hstep := insert_preserves s y h1 h2
    exact ih (s.insert y) hstep.1 hstep.2

/-- Claim C10: starting from a newly constructed heap, any sequence built
from `insert` alone keeps the min-max ordering invariant: every min-level
node is a lower bound for its whole subtree and every max-level node an
upper bound — the two-level bubble-up fully restores heap order after each
append. -/
theorem claim_C10_insert_invariant (xs : List Int) :
    heapInv (run_inserts xs).heap (run_inserts xs).size :=
  (run_inserts_wf_inv xs).2

/-- Claim C1: the claimed invariant fails once `delete_min` runs, because
the `_trickle_down` repair is an acknowledged placeholder that does nothing.
Inserting 1, 2, 3 and then deleting the minimum leaves the backing list
`[0, 3, 2]` (root 3 above descendant 2 on a min level), which violates the
min-max ordering invariant. -/
theorem claim_C1_delete_min_breaks_invariant :
    MinMaxHeap.delete_min (run_inserts [1, 2, 3]) = .ok (1, ⟨[0, 3, 2], 2⟩) ∧
      ¬ heapInv [0, 3, 2] 2 :=
  ⟨rfl, by decide⟩

/-- Claim C2: `delete_min` on a one-element heap pops the sole element off
the backing list and only then fails on the out-of-range slot-1 assignment,
leaving the mutated state `⟨[0], 1⟩` behind — a partial mutation followed by
an error, contradicting the claimed atomicity. -/
theorem claim_C2_partial_mutation :
    MinMaxHeap.delete_min (run_inserts [7]) = .error (.indexOutOfRange, ⟨[0], 1⟩) ∧
      run_inserts [7] = ⟨[0, 7], 1⟩ ∧
      (⟨[0], 1⟩ : MinMaxHeap) ≠ ⟨[0, 7], 1⟩ :=
  ⟨rfl, rfl, by decide⟩

/-- Claim C3: `delete_min` raises even though the heap is not empty: on the
one-element heap obtained by inserting 5, the size is 1 yet the call fails
(with the out-of-range index error, not the empty-container guard), so the
raise-iff-empty claim is false on the code. -/
theorem claim_C3_raises_nonempty :
    (run_inserts [5]).size = 1 ∧
      MinMaxHeap.delete_min (run_inserts [5]) = .error (.indexOutOfRange, ⟨[0], 1⟩) :=
  ⟨rfl, rfl⟩

/-- Claim C4: inserting 10, 8, 30, 2, 50, 15, 60 in that order into a newly
constructed heap yields `get_min` 2 and `get_max` 60. -/
theorem claim_C4_concrete_scenario :
    MinMaxHeap.get_min (run_inserts [10, 8, 30, 2, 50, 15, 60]) =
        .ok (2, run_inserts [10, 8, 30, 2, 50, 15, 60]) ∧
      MinMaxHeap.get_max (run_inserts [10, 8, 30, 2, 50, 15, 60]) =
        .ok (60, run_inserts [10, 8, 30, 2, 50, 15, 60]) :=
  ⟨rfl, rfl⟩

/-- Claim C5, counterexample: on the two-element heap built by inserting 10
then 8 the root holds 8, yet `get_max` returns 10 (the element at index 2),
so "returns the root itself when size ≤ 2" is false at size 2. -/
theorem claim_C5_counterexample :
    (run_inserts [10, 8]).size = 2 ∧
      MinMaxHeap.get_max (run_inserts [10, 8]) = .ok (10, run_inserts [10, 8]) ∧
      (run_inserts [10, 8]).heap.getD 1 0 = 8 ∧ (10 : Int) ≠ 8 :=
  ⟨rfl, rfl, rfl, by decide⟩

/-- Claim C5, amended: for every non-empty heap `get_max` succeeds without
mutation and returns the root value at size 1, the element at index 2 at
size 2, and the larger of the two root children (indices 2 and 3) at size
3 or more. -/
theorem claim_C5_get_max_value (s : MinMaxHeap) (h : 1 ≤ s.size) :
    MinMaxHeap.get_max s = .ok
      ((if s.size = 1 then s.heap.getD 1 0
        else if s.size = 2 then s.heap.getD 2 0
        else max (s.heap.getD 2 0) (s.heap.getD 3 0)), s) := by
  unfold MinMaxHeap.get_max
  rw [if_neg (by omega)]
  by_cases h1 : s.size = 1
  · rw [if_pos h1, if_pos h1]
  · rw [if_neg h1, if_neg h1]
    by_cases h2 : s.size = 2
    · rw [if_pos h2, if_pos h2]
    · rw [if_neg h2, if_neg h2]

/-- Witness for `claim_C5_get_max_value` at the three-element heap built by
inserting 10, 8, 30. -/
theorem claim_C5_get_max_value_witness :
    MinMaxHeap.get_max (run_inserts [10, 8, 30]) = .ok
      ((if (run_inserts [10, 8, 30]).size = 1 then (run_inserts [10, 8, 30]).heap.getD 1 0
        else if (run_inserts [10, 8, 30]).size = 2 then
          (run_inserts [10, 8, 30]).heap.getD 2 0
        else max ((run_inserts [10, 8, 30]).heap.getD 2 0)
          ((run_inserts [10, 8, 30]).heap.getD 3 0)), run_inserts [10, 8, 30]) :=
  claim_C5_get_max_value (run_inserts [10, 8, 30]) (by decide)

/-- Claim C6: from a well-formed state (backing list of length `size + 1`,
i.e. sentinel plus `size` contiguous elements encoding a complete binary
tree), every operation that completes leaves a well-formed state: `insert`
unconditionally, and the observers and `delete_min` whenever they return
successfully. -/
theorem claim_C6_complete_shape (s : MinMaxHeap) (x v : Int) (t : MinMaxHeap)
    (hwf : wf s) :
    wf (s.insert x) ∧
      (MinMaxHeap.get_min s = .ok (v, t) → wf t) ∧
      (MinMaxHeap.get_max s = .ok (v, t) → wf t) ∧
      (MinMaxHeap.delete_min s = .ok (v, t) → wf t) := by
  unfold wf at hwf
  refine ⟨?_, ?_, ?_, ?_⟩
  · show (bubble_up (s.heap ++ [x]) (s.size + 1)).length = s.size + 1 + 1
    rw [length_bubble_up]
    simp [hwf]
  · intro h
    unfold MinMaxHeap.get_min at h
    by_cases hs : s.size < 1
    · rw [if_pos hs] at h
      exact absurd h (by simp)
    · rw [if_neg hs] at h
      simp only [Except.ok.injEq, Prod.mk.injEq] at h
      rw [← h.2]
      exact hwf
  · intro h
    unfold MinMaxHeap.get_max at h
    by_cases hs : s.size < 1
    · rw [if_pos hs] at h
      exact absurd h (by simp)
    · rw [if_neg hs] at h
      by_cases hs1 : s.size = 1
      · rw [if_pos hs1] at h
        simp only [Except.ok.injEq, Prod.mk.injEq] at h
        rw [← h.2]
        exact hwf
      · rw [if_neg hs1] at h
        by_cases hs2 : s.size = 2
        · rw [if_pos hs2] at h
          simp only [Except.ok.injEq, Prod.mk.injEq] at h
          rw [← h.2]
          exact hwf
        · rw [if_neg hs2] at h
          simp only [Except.ok.injEq, Prod.mk.injEq] at h
          rw [← h.2]
          exact hwf
  · intro h
    unfold MinMaxHeap.delete_min at h
    by_cases hs : s.size < 1
    · rw [if_pos hs] at h
      exact absurd h (by simp)
    · rw [if_neg hs] at h
      by_cases hl : 1 < s.heap.dropLast.length
      · rw [if_pos hl] at h
        simp only [Except.ok.injEq, Prod.mk.injEq] at h
        rw [← h.2]
        simp only [wf, trickle_down, ite_self, List.length_set,
          List.length_dropLast]
        omega
      · rw [if_neg hl] at h
        exact absurd h (by simp)

/-- Witness for `claim_C6_complete_shape` at the three-element heap built by
inserting 1, 2, 3. -/
theorem claim_C6_complete_shape_witness :
    wf ((run_inserts [1, 2, 3]).insert 4) ∧
      (MinMaxHeap.get_min (run_inserts [1, 2, 3]) =
          .ok (1, run_inserts [1, 2, 3]) → wf (run_inserts [1, 2, 3])) ∧
      (MinMaxHeap.get_max (run_inserts [1, 2, 3]) =
          .ok (1, run_inserts [1, 2, 3]) → wf (run_inserts [1, 2, 3])) ∧
      (MinMaxHeap.delete_min (run_inserts [1, 2, 3]) =
          .ok (1, run_inserts [1, 2, 3]) → wf (run_inserts [1, 2, 3])) :=
  claim_C6_complete_shape (run_inserts [1, 2, 3]) 4 1 (run_inserts [1, 2, 3])
    (by decide)

/-- Claim C8: both grandparent bubble chains terminate on every input: the
recursion depth starting from index `i` is at most `i`, so running the
fuel-indexed body with any fuel of at least `i` computes the same result as
the operation itself. -/
theorem claim_C8_termination (f i : Nat) (l : List Int) (hf : i ≤ f) :
    bubble_up_min_aux f l i = bubble_up_min l i ∧
      bubble_up_max_aux f l i = bubble_up_max l i :=
  ⟨bubble_up_min_aux_congr f i l i hf (le_refl i),
    bubble_up_max_aux_congr f i l i hf (le_refl i)⟩

/-- Witness for `claim_C8_termination` with fuel 9 at index 3. -/
theorem claim_C8_termination_witness :
    bubble_up_min_aux 9 [0, 5, 6, 7] 3 = bubble_up_min [0, 5, 6, 7] 3 ∧
      bubble_up_max_aux 9 [0, 5, 6, 7] 3 = bubble_up_max [0, 5, 6, 7] 3 :=
  claim_C8_termination 9 3 [0, 5, 6, 7] (by decide)

/-- Claim C9: the observers are pure: whenever `get_min` or `get_max`
succeeds the state it hands back is exactly the state it was called on, and
the size query returns the size field with the unchanged state. -/
theorem claim_C9_observers_pure (s t u : MinMaxHeap) (v w : Int)
    (h1 : MinMaxHeap.get_min s = .ok (v, t))
    (h2 : MinMaxHeap.get_max s = .ok (w, u)) :
    t = s ∧ u = s ∧ MinMaxHeap.size_query s = (s.size, s) := by
  refine ⟨?_, ?_, rfl⟩
  · unfold MinMaxHeap.get_min at h1
    by_cases hs : s.size < 1
    · rw [if_pos hs] at h1
      exact absurd h1 (by simp)
    · rw [if_neg hs] at h1
      simp only [Except.ok.injEq, Prod.mk.injEq] at h1
      exact h1.2.symm
  · unfold MinMaxHeap.get_max at h2
    by_cases hs : s.size < 1
    · rw [if_pos hs] at h2
      exact absurd h2 (by simp)
    · rw [if_neg hs] at h2
      by_cases hs1 : s.size = 1
      · rw [if_pos hs1] at h2
        simp only [Except.ok.injEq, Prod.mk.injEq] at h2
        exact h2.2.symm
      · rw [if_neg hs1] at h2
        by_cases hs2 : s.size = 2
        · rw [if_pos hs2] at h2
          simp only [Except.ok.injEq, Prod.mk.injEq] at h2
          exact h2.2.symm
        · rw [if_neg hs2] at h2
          simp only [Except.ok.injEq, Prod.mk.injEq] at h2
          exact h2.2.symm

/-- Witness for `claim_C9_observers_pure` at the one-element heap holding
5. -/
theorem claim_C9_observers_pure_witness :
    run_inserts [5] = run_inserts [5] ∧ run_inserts [5] = run_inserts [5] ∧
      MinMaxHeap.size_query (run_inserts [5]) =
        ((run_inserts [5]).size, run_inserts [5]) :=
  claim_C9_observers_pure (run_inserts [5]) (run_inserts [5]) (run_inserts [5])
    5 5 rfl rfl

end MinMaxHeapModel
